import Mathlib

/-!
Verification of `src/simd_example.c` (SIMD array addition demo).

Embedding choices:
* A float buffer lives in a flat byte-free address space: memory is a total
  function `Nat → α` from element addresses to values, and each buffer is a
  base address plus a length.  `add_arrays_simd` receives three base
  addresses, mirroring the three `float*` parameters.
* The element type `α` and the addition `add : α → α → α` are abstract.  In
  the C program every output element is a single two-operand IEEE-754
  single-precision addition (`_mm256_add_ps`, `_mm_add_ps` and scalar `+`
  all perform that same lane-wise operation), so one abstract binary
  operation models all three paths faithfully; no reduction or re-association
  ever happens, so no property below depends on rounding.
* For the concrete driver scenario (`n = 1024`) the values are the integers
  `0 .. 1024`; IEEE-754 single-precision represents these exactly and adds
  them exactly (all magnitudes are far below 2^24), so `Nat` with `+`
  is an exact model of the float arithmetic the driver performs.
* `size_t` arithmetic is modelled by `Nat`: the loop counters stay within
  `[0, n + 8]` and `n` counts elements of an allocated buffer, so no
  wrap-around at 2^64 can occur.
-/

namespace SimdExample

/-- A flat memory: element addresses to values. -/
abbrev Mem (α : Type) : Type := Nat → α

/-- Write value `v` at address `addr`. -/
def store {α : Type} (m : Mem α) (addr : Nat) (v : α) : Mem α :=
  fun x => if x = addr then v else m x

/-- `_mm256_loadu_ps` / `_mm_loadu_ps`: load `w` consecutive elements starting
at address `p` into a vector register (a `List α` of length `w`). -/
def loadu {α : Type} (m : Mem α) (p : Nat) : Nat → List α
  | 0 => []
  | w + 1 => m p :: loadu m (p + 1) w

/-- `_mm256_add_ps` / `_mm_add_ps`: lane-wise addition of two vector
registers. -/
def vadd {α : Type} (add : α → α → α) (u v : List α) : List α :=
  List.zipWith add u v

/-- `_mm256_storeu_ps` / `_mm_storeu_ps`: store the lanes of a vector
register to consecutive addresses starting at `p`. -/
def storeu {α : Type} : Mem α → Nat → List α → Mem α
  | m, _, [] => m
  | m, p, x :: xs => storeu (store m p x) (p + 1) xs

/-- The chunked SIMD loop of `add_arrays_simd`
(`for (i = 0; i + w <= n; i += w)` with `w = 8` under AVX, `w = 4` under
SSE2): load `w` elements of `a` and of `b`, add lane-wise, store to `c`.
Returns the memory and the final value of `i`.  The extra `0 < w` guard only
rules out the (never used) width 0, for which the C loop would not
terminate either. -/
def chunkLoop {α : Type} (add : α → α → α) (w pa pb pc n : Nat) (i : Nat)
    (m : Mem α) : Mem α × Nat :=
  if h : 0 < w ∧ i + w ≤ n then
    chunkLoop add w pa pb pc n (i + w)
      (storeu m (pc + i) (vadd add (loadu m (pa + i) w) (loadu m (pb + i) w)))
  else
    (m, i)
termination_by n - i
decreasing_by omega

/-- The scalar loop `for (; i < n; ++i) c[i] = a[i] + b[i];` — the remainder
loop of the AVX and SSE2 paths, and the whole loop of the scalar path. -/
def remLoop {α : Type} (add : α → α → α) (pa pb pc n : Nat) (i : Nat)
    (m : Mem α) : Mem α :=
  if i < n then
    remLoop add pa pb pc n (i + 1)
      (store m (pc + i) (add (m (pa + i)) (m (pb + i))))
  else
    m
termination_by n - i

/-- The compile-time capability tag: which of the three preprocessor branches
of `add_arrays_simd` is compiled in. -/
inductive Capability : Type
  | wide
  | narrow
  | scalar
deriving DecidableEq, Repr

/-- The preprocessor dispatch `#if defined(__AVX__) / #elif defined(__SSE2__)
/ #else`: a strict priority chain over the two feature-test macros,
evaluated once at build time. -/
def selectCapability (avx sse2 : Bool) : Capability :=
  if avx then Capability.wide
  else if sse2 then Capability.narrow
  else Capability.scalar

/-- The diagnostic line each branch of `add_arrays_simd` passes to `puts`
before processing.  The AVX branch prints `"AVX is detected."` and the
fallback branch prints `"no SIMD extension is detected."`.  The SSE2 branch
is written `puts(SSE2 "is detected.");` where `SSE2` is an identifier that
is declared nowhere (it is not a macro of this file nor of the included
headers), so that branch is ill-formed C and produces no string at all:
modelled as `none`. -/
def capabilityLine : Capability → Option String
  | Capability.wide => some "AVX is detected."
  | Capability.narrow => none
  | Capability.scalar => some "no SIMD extension is detected."

/-- `add_arrays_simd(a, b, c, n)`: element-wise addition of the buffers at
`pa` and `pb` into the buffer at `pc`.  Under `Capability.wide` (AVX) a
chunk-8 vector loop runs first, under `Capability.narrow` (SSE2) a chunk-4
vector loop, and the scalar loop finishes the remainder (it is the entire
loop under `Capability.scalar`). -/
def add_arrays_simd {α : Type} (add : α → α → α) (cap : Capability)
    (pa pb pc n : Nat) (m : Mem α) : Mem α :=
  match cap with
  | Capability.wide =>
      let r := chunkLoop add 8 pa pb pc n 0 m
      remLoop add pa pb pc n r.2 r.1
  | Capability.narrow =>
      let r := chunkLoop add 4 pa pb pc n 0 m
      remLoop add pa pb pc n r.2 r.1
  | Capability.scalar =>
      remLoop add pa pb pc n 0 m

/-- The loop of `initialize_arrays`: for each `i < n`, `a[i] = (float)i;
b[i] = (float)(n - i);`.  The conversion from the index to the element type
is the abstract `ofNat` (the C cast `(float)`). -/
def initLoop {α : Type} (ofNat : Nat → α) (pa pb n : Nat) (i : Nat)
    (m : Mem α) : Mem α :=
  if i < n then
    initLoop ofNat pa pb n (i + 1)
      (store (store m (pa + i) (ofNat i)) (pb + i) (ofNat (n - i)))
  else
    m
termination_by n - i

/-- `initialize_arrays(a, b, n)`. -/
def initialize_arrays {α : Type} (ofNat : Nat → α) (pa pb n : Nat)
    (m : Mem α) : Mem α :=
  initLoop ofNat pa pb n 0 m

/-- Two buffers of `n` elements based at `p` and `q` occupy disjoint address
ranges (`[p, p + n)` and `[q, q + n)` do not intersect). -/
def disjointBuf (p q n : Nat) : Prop :=
  p + n ≤ q ∨ q + n ≤ p

instance (p q n : Nat) : Decidable (disjointBuf p q n) := by
  unfold disjointBuf; infer_instance

/-- `printf("%f", v)` rendering of a value that is an exact nonnegative
integer: the integer digits followed by six zero decimals.  The driver only
ever prints the value 1024, for which this models `%f` exactly. -/
def formatF (v : Nat) : String :=
  toString v ++ ".000000"

/-- The verification print loop of `main`: the first 10 lines
`printf("c[%zu] = %f\n", i, c[i])`. -/
def printLines (m : Mem Nat) (pc : Nat) : List String :=
  (List.range 10).map fun i => "c[" ++ toString i ++ "] = " ++ formatF (m (pc + i))

/-- Observable outcome of one run of `main`: exit status, the lines written
to stdout and to stderr, and the final memory. -/
structure ProgResult where
  exitCode : Nat
  stdoutLines : List String
  stderrLines : List String
  mem : Mem Nat

/-- Array size `n = 1024` of the driver. -/
def mainN : Nat := 1024

/-- Model base address of buffer `a` (first `malloc`). -/
def paMain : Nat := 0

/-- Model base address of buffer `b` (second `malloc`). -/
def pbMain : Nat := 1024

/-- Model base address of buffer `c` (third `malloc`). -/
def pcMain : Nat := 2048

/-- `main()`: allocate `a`, `b`, `c` (1024 floats each; `allocA allocB allocC`
say whether each `malloc` succeeds, and the three buffers are modelled at
disjoint base addresses 0, 1024, 2048); if any allocation failed, print
`Memory allocation failed` to stderr and return 1; otherwise initialize,
add under the compiled-in capability, print the first 10 results and
return 0.  `m0` is the arbitrary initial content of memory (`malloc` does
not initialize). -/
def main (allocA allocB allocC : Bool) (cap : Capability) (m0 : Mem Nat) :
    ProgResult :=
  if allocA && allocB && allocC then
    let m1 := initialize_arrays (fun i => i) paMain pbMain mainN m0
    let m2 := add_arrays_simd (· + ·) cap paMain pbMain pcMain mainN m1
    { exitCode := 0
      stdoutLines := (capabilityLine cap).toList ++ printLines m2 pcMain
      stderrLines := []
      mem := m2 }
  else
    { exitCode := 1
      stdoutLines := []
      stderrLines := ["Memory allocation failed"]
      mem := m0 }

/-- Index trace of the chunked loop: the buffer offsets accessed by each
full chunk (`a[i..i+w)`, `b[i..i+w)`, `c[i..i+w)` all use the same
offsets), together with the final value of `i`. -/
def chunkLoopT (w n : Nat) (i : Nat) : List Nat × Nat :=
  if h : 0 < w ∧ i + w ≤ n then
    let r := chunkLoopT w n (i + w)
    ((List.range w).map (fun j => i + j) ++ r.1, r.2)
  else
    ([], i)
termination_by n - i
decreasing_by omega

/-- Index trace of the scalar remainder loop: offsets `i, i+1, …, n-1`. -/
def remLoopT (n : Nat) (i : Nat) : List Nat :=
  if i < n then i :: remLoopT n (i + 1) else []
termination_by n - i

/-- All buffer offsets accessed by `add_arrays_simd` under a capability:
chunked-loop offsets followed by remainder-loop offsets. -/
def accessOffsets (cap : Capability) (n : Nat) : List Nat :=
  match cap with
  | Capability.wide =>
      let r := chunkLoopT 8 n 0
      r.1 ++ remLoopT n r.2
  | Capability.narrow =>
      let r := chunkLoopT 4 n 0
      r.1 ++ remLoopT n r.2
  | Capability.scalar =>
      remLoopT n 0

/-! ### Basic lemmas about stores and vector transfers -/

theorem store_self {α : Type} (m : Mem α) (a : Nat) (v : α) : store m a v a = v := by
  simp [store]

theorem store_other {α : Type} (m : Mem α) (a : Nat) (v : α) {x : Nat}
    (h : x ≠ a) : store m a v x = m x := by
  simp [store, h]

theorem disjointBuf_ne {p q n : Nat} (h : disjointBuf p q n) {j k : Nat}
    (hj : j < n) (hk : k < n) : p + j ≠ q + k := by
  unfold disjointBuf at h
  omega

theorem storeu_frame {α : Type} (l : List α) :
    ∀ (p : Nat) (m : Mem α) (x : Nat),
      (∀ j, j < l.length → x ≠ p + j) → storeu m p l x = m x := by
  induction l with
  | nil => intro p m x _; rfl
  | cons v l ih =>
    intro p m x h
    have h0 : x ≠ p := by
      have := h 0 (Nat.succ_pos _)
      omega
    have hs : ∀ j, j < l.length → x ≠ (p + 1) + j := by
      intro j hj
      have := h (j + 1) (by simpa using Nat.succ_lt_succ hj)
      omega
    calc storeu m p (v :: l) x = storeu (store m p v) (p + 1) l x := rfl
      _ = store m p v x := ih (p + 1) (store m p v) x hs
      _ = m x := store_other _ _ _ h0

theorem storeu_getD {α : Type} (l : List α) :
    ∀ (p : Nat) (m : Mem α) (j : Nat) (d : α), j < l.length →
      storeu m p l (p + j) = l.getD j d := by
  induction l with
  | nil => intro p m j d h; exact absurd h (by simp)
  | cons v l ih =>
    intro p m j d h
    match j with
    | 0 =>
      have hfr : storeu (store m p v) (p + 1) l (p + 0) = store m p v (p + 0) :=
        storeu_frame l (p + 1) _ _ (fun k _ => by omega)
      calc storeu m p (v :: l) (p + 0)
          = storeu (store m p v) (p + 1) l (p + 0) := rfl
        _ = store m p v (p + 0) := hfr
        _ = v := by simp [store]
        _ = (v :: l).getD 0 d := rfl
    | j + 1 =>
      have hl : j < l.length := by simpa using h
      have harith : p + (j + 1) = (p + 1) + j := by omega
      calc storeu m p (v :: l) (p + (j + 1))
          = storeu (store m p v) (p + 1) l (p + (j + 1)) := rfl
        _ = storeu (store m p v) (p + 1) l ((p + 1) + j) := by rw [harith]
        _ = l.getD j d := ih (p + 1) _ j d hl
        _ = (v :: l).getD (j + 1) d := rfl

theorem loadu_length {α : Type} (m : Mem α) :
    ∀ (w p : Nat), (loadu m p w).length = w
  | 0, _ => rfl
  | w + 1, p => by simp [loadu, loadu_length m w (p + 1)]

theorem vadd_loadu_length {α : Type} (add : α → α → α) (m : Mem α)
    (w p q : Nat) : (vadd add (loadu m p w) (loadu m q w)).length = w := by
  simp [vadd, List.length_zipWith, loadu_length]

theorem vadd_loadu_getD {α : Type} (add : α → α → α) (m : Mem α) :
    ∀ (w p q j : Nat) (d : α), j < w →
      (vadd add (loadu m p w) (loadu m q w)).getD j d =
        add (m (p + j)) (m (q + j))
  | 0, _, _, _, _, h => absurd h (by omega)
  | w + 1, p, q, 0, d, _ => by simp [loadu, vadd]
  | w + 1, p, q, j + 1, d, h => by
    have e : vadd add (loadu m p (w + 1)) (loadu m q (w + 1)) =
        add (m p) (m q) :: vadd add (loadu m (p + 1) w) (loadu m (q + 1) w) := rfl
    rw [e, List.getD_cons_succ]
    rw [vadd_loadu_getD add m w (p + 1) (q + 1) j d (by omega)]
    have e1 : p + 1 + j = p + (j + 1) := by omega
    have e2 : q + 1 + j = q + (j + 1) := by omega
    rw [e1, e2]

/-- Effect of one SIMD chunk on the lane it writes: lane `j` of the stored
vector is the sum of the corresponding `a` and `b` elements. -/
theorem chunkStore_val {α : Type} (add : α → α → α) (m : Mem α)
    {w pa pb pc i j : Nat} (h : j < w) :
    storeu m (pc + i) (vadd add (loadu m (pa + i) w) (loadu m (pb + i) w))
        (pc + (i + j)) =
      add (m (pa + (i + j))) (m (pb + (i + j))) := by
  have hl : j < (vadd add (loadu m (pa + i) w) (loadu m (pb + i) w)).length := by
    rw [vadd_loadu_length]; exact h
  have e : pc + (i + j) = (pc + i) + j := by omega
  rw [e, storeu_getD _ _ _ j (m 0) hl,
    vadd_loadu_getD add m w (pa + i) (pb + i) j (m 0) h]
  have e1 : pa + i + j = pa + (i + j) := by omega
  have e2 : pb + i + j = pb + (i + j) := by omega
  rw [e1, e2]

/-- One SIMD chunk leaves every address it does not store to unchanged. -/
theorem chunkStore_frame {α : Type} (add : α → α → α) (m : Mem α)
    {w pa pb pc i x : Nat} (h : ∀ j, j < w → x ≠ pc + (i + j)) :
    storeu m (pc + i) (vadd add (loadu m (pa + i) w) (loadu m (pb + i) w)) x =
      m x := by
  refine storeu_frame _ _ _ _ (fun j hj => ?_)
  rw [vadd_loadu_length] at hj
  have := h j hj
  omega

/-! ### The scalar loop -/

/-- The scalar loop started at `i` leaves every address other than
`c[i..n)` unchanged. -/
theorem remLoop_frame {α : Type} (add : α → α → α) (pa pb pc n : Nat) :
    ∀ (i : Nat) (m : Mem α) (x : Nat),
      (∀ j, i ≤ j → j < n → x ≠ pc + j) →
      remLoop add pa pb pc n i m x = m x := by
  intro i m
  induction i, m using remLoop.induct add pa pb pc n with
  | case1 i m hlt ih =>
    intro x hx
    rw [remLoop, if_pos hlt]
    rw [ih x (fun j h1 h2 => hx j (by omega) h2)]
    exact store_other _ _ _ (hx i (Nat.le_refl i) hlt)
  | case2 i m hlt =>
    intro x hx
    rw [remLoop, if_neg hlt]

/-- The scalar loop started at `i` writes `c[j] = a[j] + b[j]` for every
`j` in `[i, n)`, provided `c` does not overlap `a` or `b`. -/
theorem remLoop_val {α : Type} (add : α → α → α) (pa pb pc n : Nat)
    (hca : disjointBuf pc pa n) (hcb : disjointBuf pc pb n) :
    ∀ (i : Nat) (m : Mem α) (j : Nat), i ≤ j → j < n →
      remLoop add pa pb pc n i m (pc + j) = add (m (pa + j)) (m (pb + j)) := by
  intro i m
  induction i, m using remLoop.induct add pa pb pc n with
  | case1 i m hlt ih =>
    intro j hij hjn
    rw [remLoop, if_pos hlt]
    by_cases hji : j = i
    · subst hji
      rw [remLoop_frame add pa pb pc n (j + 1) _ (pc + j)
        (fun k h1 _ => by omega)]
      simp [store]
    · rw [ih j (by omega) hjn]
      have ha : pa + j ≠ pc + i := Ne.symm (disjointBuf_ne hca hlt hjn)
      have hb : pb + j ≠ pc + i := Ne.symm (disjointBuf_ne hcb hlt hjn)
      rw [store_other _ _ _ ha, store_other _ _ _ hb]
  | case2 i m hlt =>
    intro j hij hjn
    exact absurd hjn (by omega)

/-! ### The chunked SIMD loop -/

theorem chunkLoop_snd_ge {α : Type} (add : α → α → α) (w pa pb pc n : Nat) :
    ∀ (i : Nat) (m : Mem α), i ≤ (chunkLoop add w pa pb pc n i m).2 := by
  intro i m
  induction i, m using chunkLoop.induct add w pa pb pc n with
  | case1 i m h ih =>
    rw [chunkLoop, dif_pos h]
    omega
  | case2 i m h =>
    rw [chunkLoop, dif_neg h]

/-- The chunked loop started at `i` stops exactly at `i + ((n-i)/w)*w`; from
`i = 0` that is `(n / w) * w`, the largest multiple of `w` at most `n`. -/
theorem chunkLoop_snd {α : Type} (add : α → α → α) (w pa pb pc n : Nat)
    (hw : 0 < w) :
    ∀ (i : Nat) (m : Mem α),
      (chunkLoop add w pa pb pc n i m).2 = i + (n - i) / w * w := by
  intro i m
  induction i, m using chunkLoop.induct add w pa pb pc n with
  | case1 i m h ih =>
    rw [chunkLoop, dif_pos h, ih]
    have e : n - i = (n - (i + w)) + w := by omega
    rw [e, Nat.add_div_right _ hw, Nat.succ_mul]
    omega
  | case2 i m h =>
    have hlt : n - i < w := by omega
    rw [chunkLoop, dif_neg h]
    simp [Nat.div_eq_of_lt hlt]

/-- The chunked loop started at `i` leaves every address other than
`c[i..n)` unchanged. -/
theorem chunkLoop_frame {α : Type} (add : α → α → α) (w pa pb pc n : Nat) :
    ∀ (i : Nat) (m : Mem α) (x : Nat),
      (∀ j, i ≤ j → j < n → x ≠ pc + j) →
      (chunkLoop add w pa pb pc n i m).1 x = m x := by
  intro i m
  induction i, m using chunkLoop.induct add w pa pb pc n with
  | case1 i m h ih =>
    intro x hx
    rw [chunkLoop, dif_pos h]
    rw [ih x (fun j h1 h2 => hx j (by omega) h2)]
    exact chunkStore_frame add m (fun j hj => hx (i + j) (by omega) (by omega))
  | case2 i m h =>
    intro x hx
    rw [chunkLoop, dif_neg h]

/-- Sharper frame: the chunked loop writes only to `c` offsets below its
final index (the last multiple of `w` it reached). -/
theorem chunkLoop_frame_upper {α : Type} (add : α → α → α) (w pa pb pc n : Nat) :
    ∀ (i : Nat) (m : Mem α) (x : Nat),
      (∀ j, i ≤ j → j < (chunkLoop add w pa pb pc n i m).2 → x ≠ pc + j) →
      (chunkLoop add w pa pb pc n i m).1 x = m x := by
  intro i m
  induction i, m using chunkLoop.induct add w pa pb pc n with
  | case1 i m h ih =>
    intro x hx
    have hsnd_eq : (chunkLoop add w pa pb pc n i m).2 =
        (chunkLoop add w pa pb pc n (i + w)
          (storeu m (pc + i)
            (vadd add (loadu m (pa + i) w) (loadu m (pb + i) w)))).2 := by
      rw [chunkLoop, dif_pos h]
    have hge : i + w ≤ (chunkLoop add w pa pb pc n i m).2 := by
      rw [hsnd_eq]
      exact chunkLoop_snd_ge add w pa pb pc n (i + w) _
    rw [chunkLoop, dif_pos h]
    rw [ih x (fun j h1 h2 => hx j (by omega) (by rw [hsnd_eq]; exact h2))]
    exact chunkStore_frame add m (fun j hj => hx (i + j) (by omega) (by omega))
  | case2 i m h =>
    intro x hx
    rw [chunkLoop, dif_neg h]

/-! ### Chunked loop followed by the remainder loop -/

/-- The composition run by the AVX and SSE2 paths — chunked loop from `i`,
then the scalar remainder loop from where it stopped — computes
`c[j] = a[j] + b[j]` for every `j` in `[i, n)`. -/
theorem chunk_rem_val {α : Type} (add : α → α → α) (w pa pb pc n : Nat)
    (hca : disjointBuf pc pa n) (hcb : disjointBuf pc pb n) :
    ∀ (i : Nat) (m : Mem α) (j : Nat), i ≤ j → j < n →
      remLoop add pa pb pc n (chunkLoop add w pa pb pc n i m).2
        (chunkLoop add w pa pb pc n i m).1 (pc + j) =
      add (m (pa + j)) (m (pb + j)) := by
  intro i m
  induction i, m using chunkLoop.induct add w pa pb pc n with
  | case1 i m h ih =>
    intro j hij hjn
    rw [chunkLoop, dif_pos h]
    by_cases hj : j < i + w
    · have hsnd : i + w ≤ (chunkLoop add w pa pb pc n (i + w)
          (storeu m (pc + i)
            (vadd add (loadu m (pa + i) w) (loadu m (pb + i) w)))).2 :=
        chunkLoop_snd_ge add w pa pb pc n (i + w) _
      rw [remLoop_frame add pa pb pc n _ _ (pc + j)
        (fun k h1 _ => by omega)]
      rw [chunkLoop_frame add w pa pb pc n (i + w) _ (pc + j)
        (fun k h1 _ => by omega)]
      have e : pc + j = pc + (i + (j - i)) := by omega
      rw [e, chunkStore_val add m (show j - i < w by omega)]
      have e2 : i + (j - i) = j := by omega
      rw [e2]
    · rw [ih j (by omega) hjn]
      have ea : storeu m (pc + i)
          (vadd add (loadu m (pa + i) w) (loadu m (pb + i) w)) (pa + j) =
          m (pa + j) :=
        chunkStore_frame add m
          (fun k hk => Ne.symm (disjointBuf_ne hca (by omega) hjn))
      have eb : storeu m (pc + i)
          (vadd add (loadu m (pa + i) w) (loadu m (pb + i) w)) (pb + j) =
          m (pb + j) :=
        chunkStore_frame add m
          (fun k hk => Ne.symm (disjointBuf_ne hcb (by omega) hjn))
      rw [ea, eb]
  | case2 i m h =>
    intro j hij hjn
    rw [chunkLoop, dif_neg h]
    exact remLoop_val add pa pb pc n hca hcb i m j hij hjn

/-- The chunk-then-remainder composition leaves every address other than
`c[i..n)` unchanged. -/
theorem chunk_rem_frame {α : Type} (add : α → α → α) (w pa pb pc n : Nat) :
    ∀ (i : Nat) (m : Mem α) (x : Nat),
      (∀ j, i ≤ j → j < n → x ≠ pc + j) →
      remLoop add pa pb pc n (chunkLoop add w pa pb pc n i m).2
        (chunkLoop add w pa pb pc n i m).1 x = m x := by
  intro i m
  induction i, m using chunkLoop.induct add w pa pb pc n with
  | case1 i m h ih =>
    intro x hx
    rw [chunkLoop, dif_pos h]
    rw [ih x (fun j h1 h2 => hx j (by omega) h2)]
    exact chunkStore_frame add m (fun j hj => hx (i + j) (by omega) (by omega))
  | case2 i m h =>
    intro x hx
    rw [chunkLoop, dif_neg h]
    exact remLoop_frame add pa pb pc n i m x hx

/-! ### Specification of `add_arrays_simd` under every capability -/

/-- Output values of `add_arrays_simd`: `c[j] = a[j] + b[j]` for `j < n`,
under each of the three capabilities. -/
theorem add_arrays_val {α : Type} (add : α → α → α) (cap : Capability)
    (pa pb pc n : Nat) (m : Mem α)
    (hca : disjointBuf pc pa n) (hcb : disjointBuf pc pb n)
    (j : Nat) (hj : j < n) :
    add_arrays_simd add cap pa pb pc n m (pc + j) =
      add (m (pa + j)) (m (pb + j)) := by
  cases cap with
  | wide => exact chunk_rem_val add 8 pa pb pc n hca hcb 0 m j (Nat.zero_le j) hj
  | narrow => exact chunk_rem_val add 4 pa pb pc n hca hcb 0 m j (Nat.zero_le j) hj
  | scalar => exact remLoop_val add pa pb pc n hca hcb 0 m j (Nat.zero_le j) hj

/-- Frame of `add_arrays_simd`: every address outside `c[0..n)` is left
unchanged, under each of the three capabilities. -/
theorem add_arrays_frame {α : Type} (add : α → α → α) (cap : Capability)
    (pa pb pc n : Nat) (m : Mem α) (x : Nat)
    (hx : ∀ j, j < n → x ≠ pc + j) :
    add_arrays_simd add cap pa pb pc n m x = m x := by
  cases cap with
  | wide => exact chunk_rem_frame add 8 pa pb pc n 0 m x (fun j _ => hx j)
  | narrow => exact chunk_rem_frame add 4 pa pb pc n 0 m x (fun j _ => hx j)
  | scalar => exact remLoop_frame add pa pb pc n 0 m x (fun j _ => hx j)

/-! ### Specification of `initialize_arrays` -/

theorem initLoop_frame {α : Type} (ofNat : Nat → α) (pa pb n : Nat) :
    ∀ (i : Nat) (m : Mem α) (x : Nat),
      (∀ j, i ≤ j → j < n → x ≠ pa + j ∧ x ≠ pb + j) →
      initLoop ofNat pa pb n i m x = m x := by
  intro i m
  induction i, m using initLoop.induct ofNat pa pb n with
  | case1 i m h ih =>
    intro x hx
    rw [initLoop, if_pos h]
    rw [ih x (fun j h1 h2 => hx j (by omega) h2)]
    rw [store_other _ _ _ (hx i (Nat.le_refl i) h).2,
      store_other _ _ _ (hx i (Nat.le_refl i) h).1]
  | case2 i m h =>
    intro x hx
    rw [initLoop, if_neg h]

/-- `initialize_arrays` sets `a[j] = ofNat j` for every `j` in `[i, n)`;
the value depends on nothing but the index `j`. -/
theorem initLoop_val_a {α : Type} (ofNat : Nat → α) (pa pb n : Nat)
    (hab : disjointBuf pa pb n) :
    ∀ (i : Nat) (m : Mem α) (j : Nat), i ≤ j → j < n →
      initLoop ofNat pa pb n i m (pa + j) = ofNat j := by
  intro i m
  induction i, m using initLoop.induct ofNat pa pb n with
  | case1 i m h ih =>
    intro j hij hjn
    rw [initLoop, if_pos h]
    by_cases hji : j = i
    · subst hji
      rw [initLoop_frame ofNat pa pb n (j + 1) _ (pa + j)
        (fun k h1 h2 => ⟨by omega, disjointBuf_ne hab hjn h2⟩)]
      rw [store_other _ _ _ (disjointBuf_ne hab hjn hjn)]
      simp [store]
    · exact ih j (by omega) hjn
  | case2 i m h =>
    intro j hij hjn
    exact absurd hjn (by omega)

/-- `initialize_arrays` sets `b[j] = ofNat (n - j)` for every `j` in
`[i, n)`; the value depends on nothing but the index `j` and `n`. -/
theorem initLoop_val_b {α : Type} (ofNat : Nat → α) (pa pb n : Nat)
    (hab : disjointBuf pa pb n) :
    ∀ (i : Nat) (m : Mem α) (j : Nat), i ≤ j → j < n →
      initLoop ofNat pa pb n i m (pb + j) = ofNat (n - j) := by
  intro i m
  induction i, m using initLoop.induct ofNat pa pb n with
  | case1 i m h ih =>
    intro j hij hjn
    rw [initLoop, if_pos h]
    by_cases hji : j = i
    · subst hji
      rw [initLoop_frame ofNat pa pb n (j + 1) _ (pb + j)
        (fun k h1 h2 => ⟨Ne.symm (disjointBuf_ne hab h2 hjn), by omega⟩)]
      simp [store]
    · exact ih j (by omega) hjn
  | case2 i m h =>
    intro j hij hjn
    exact absurd hjn (by omega)

/-! ### The access traces stay in bounds -/

theorem remLoopT_mem (n : Nat) :
    ∀ (i : Nat) (j : Nat), j ∈ remLoopT n i → j < n := by
  intro i
  induction i using remLoopT.induct n with
  | case1 i h ih =>
    intro j hj
    rw [remLoopT, if_pos h] at hj
    rcases List.mem_cons.mp hj with rfl | hj'
    · exact h
    · exact ih j hj'
  | case2 i h =>
    intro j hj
    rw [remLoopT, if_neg h] at hj
    simp at hj

theorem chunkLoopT_mem (w n : Nat) :
    ∀ (i : Nat) (j : Nat), j ∈ (chunkLoopT w n i).1 → j < n := by
  intro i
  induction i using chunkLoopT.induct w n with
  | case1 i h ih =>
    intro j hj
    rw [chunkLoopT, dif_pos h] at hj
    rcases List.mem_append.mp hj with hj' | hj'
    · obtain ⟨k, hk, rfl⟩ := List.mem_map.mp hj'
      have := List.mem_range.mp hk
      omega
    · exact ih j hj'
  | case2 i h =>
    intro j hj
    rw [chunkLoopT, dif_neg h] at hj
    simp at hj

/-! ### Claims -/

/-- C1: for every length `n ≥ 0`, all inputs `a`, `b` of length `n` and a
pre-allocated output `c` of length `n` (three non-overlapping buffers, the
caller contract of the C function), `add_arrays_simd` populates `c` so that
`c[i] = a[i] + b[i]` for every `i` in `[0, n)` — where `add` is the
IEEE-754 single-precision addition that the scalar `+` and the vector add
intrinsics all perform lane-wise — under each of the three strategies. -/
theorem add_arrays_simd_correct {α : Type} (add : α → α → α) (cap : Capability)
    (pa pb pc n : Nat) (m : Mem α)
    (hca : disjointBuf pc pa n) (hcb : disjointBuf pc pb n)
    (i : Nat) (hi : i < n) :
    add_arrays_simd add cap pa pb pc n m (pc + i) =
      add (m (pa + i)) (m (pb + i)) :=
  add_arrays_val add cap pa pb pc n m hca hcb i hi

theorem add_arrays_simd_correct_witness :
    disjointBuf 20 0 5 ∧ disjointBuf 20 10 5 ∧ 2 < 5 ∧
    add_arrays_simd (· + ·) Capability.wide 0 10 20 5 (fun x => x) (20 + 2) =
      (fun x : Nat => x) (0 + 2) + (fun x : Nat => x) (10 + 2) :=
  ⟨by decide, by decide, by decide,
    add_arrays_simd_correct (· + ·) Capability.wide 0 10 20 5 (fun x => x)
      (by decide) (by decide) 2 (by decide)⟩

/-- C2: on the same input (same buffers, same contents, non-overlapping
output buffer), the wide-vector (chunk 8), narrow-vector (chunk 4) and
scalar variants of `add_arrays_simd` produce identical results — here
literally the same final memory, hence bit-identical output arrays, since
every strategy performs the very same two-operand addition per element and
no reduction occurs. -/
theorem add_arrays_simd_strategies_agree {α : Type} (add : α → α → α)
    (pa pb pc n : Nat) (m : Mem α)
    (hca : disjointBuf pc pa n) (hcb : disjointBuf pc pb n) :
    add_arrays_simd add Capability.wide pa pb pc n m =
      add_arrays_simd add Capability.narrow pa pb pc n m ∧
    add_arrays_simd add Capability.narrow pa pb pc n m =
      add_arrays_simd add Capability.scalar pa pb pc n m := by
  have key : ∀ cap, add_arrays_simd add cap pa pb pc n m =
      add_arrays_simd add Capability.scalar pa pb pc n m := by
    intro cap
    funext x
    by_cases hx : ∃ j, j < n ∧ x = pc + j
    · obtain ⟨j, hj, rfl⟩ := hx
      rw [add_arrays_val add cap pa pb pc n m hca hcb j hj,
        add_arrays_val add Capability.scalar pa pb pc n m hca hcb j hj]
    · push_neg at hx
      rw [add_arrays_frame add cap pa pb pc n m x hx,
        add_arrays_frame add Capability.scalar pa pb pc n m x hx]
  exact ⟨(key Capability.wide).trans (key Capability.narrow).symm,
    key Capability.narrow⟩

theorem add_arrays_simd_strategies_agree_witness :
    disjointBuf 20 0 5 ∧ disjointBuf 20 10 5 ∧
    (add_arrays_simd (· + ·) Capability.wide 0 10 20 5 (fun x => x) =
      add_arrays_simd (· + ·) Capability.narrow 0 10 20 5 (fun x => x)) ∧
    (add_arrays_simd (· + ·) Capability.narrow 0 10 20 5 (fun x => x) =
      add_arrays_simd (· + ·) Capability.scalar 0 10 20 5 (fun x => x)) := by
  have h := add_arrays_simd_strategies_agree (· + ·) 0 10 20 5 (fun x => x)
    (by decide) (by decide)
  exact ⟨by decide, by decide, h.1, h.2⟩

/-- C3: for every `n` (multiple of the chunk width or not), the chunked
loop stops exactly at `(n / w) * w` — so it processes precisely the first
`(n / w) * w` elements and touches nothing at or beyond that offset in `c`
— and the scalar remainder loop computes every trailing element
`c[i] = a[i] + b[i]` for `i` in `[(n / w) * w, n)`; in particular for
`n = 0` no element is written at all. -/
theorem chunk_remainder_split {α : Type} (add : α → α → α) {w : Nat}
    (hw : w = 8 ∨ w = 4) (pa pb pc n : Nat) (m : Mem α)
    (hca : disjointBuf pc pa n) (hcb : disjointBuf pc pb n) :
    (chunkLoop add w pa pb pc n 0 m).2 = n / w * w ∧
    (∀ x, (∀ j, j < n / w * w → x ≠ pc + j) →
      (chunkLoop add w pa pb pc n 0 m).1 x = m x) ∧
    (∀ j, n / w * w ≤ j → j < n →
      remLoop add pa pb pc n (chunkLoop add w pa pb pc n 0 m).2
        (chunkLoop add w pa pb pc n 0 m).1 (pc + j) =
      add (m (pa + j)) (m (pb + j))) ∧
    (n = 0 →
      ∀ x, remLoop add pa pb pc n (chunkLoop add w pa pb pc n 0 m).2
        (chunkLoop add w pa pb pc n 0 m).1 x = m x) := by
  have hw0 : 0 < w := by omega
  have hsnd : (chunkLoop add w pa pb pc n 0 m).2 = n / w * w := by
    rw [chunkLoop_snd add w pa pb pc n hw0 0 m]
    simp
  refine ⟨hsnd, ?_, ?_, ?_⟩
  · intro x hx
    refine chunkLoop_frame_upper add w pa pb pc n 0 m x (fun j _ hj => ?_)
    rw [hsnd] at hj
    exact hx j hj
  · intro j _ hjn
    exact chunk_rem_val add w pa pb pc n hca hcb 0 m j (Nat.zero_le j) hjn
  · intro hn x
    refine chunk_rem_frame add w pa pb pc n 0 m x (fun j _ hj => ?_)
    exact absurd hj (by omega)

theorem chunk_remainder_split_witness :
    (8 = 8 ∨ 8 = 4) ∧ disjointBuf 20 0 5 ∧ disjointBuf 20 10 5 ∧
    (chunkLoop (· + ·) 8 0 10 20 5 0 (fun x : Nat => x)).2 = 5 / 8 * 8 :=
  ⟨by decide, by decide, by decide,
    (chunk_remainder_split (· + ·) (Or.inl rfl) 0 10 20 5 (fun x => x)
      (by decide) (by decide)).1⟩

/-- C4: with `n = 1024`, after `initialize_arrays` and `add_arrays_simd`
the driver has `c[i] = i + (1024 - i) = 1024` for every `i` in `[0, 1024)`
(the values `0 .. 1024` and these sums are exact in IEEE-754 single
precision, so `Nat` arithmetic models them exactly), and its stdout is the
capability line followed by exactly the 10 lines `c[<i>] = 1024.000000`
for `i = 0 .. 9` (the `%f` rendering with six digits after the decimal
point), and it exits with status 0. -/
theorem main_end_to_end (cap : Capability) (m0 : Mem Nat) :
    (∀ i, i < 1024 → (main true true true cap m0).mem (pcMain + i) = 1024) ∧
    (main true true true cap m0).stdoutLines =
      (capabilityLine cap).toList ++
        (List.range 10).map (fun i => "c[" ++ toString i ++ "] = 1024.000000") ∧
    (main true true true cap m0).exitCode = 0 := by
  have hca : disjointBuf pcMain paMain mainN := by decide
  have hcb : disjointBuf pcMain pbMain mainN := by decide
  have hab : disjointBuf paMain pbMain mainN := by decide
  have hmem : (main true true true cap m0).mem =
      add_arrays_simd (· + ·) cap paMain pbMain pcMain mainN
        (initLoop (fun k => k) paMain pbMain mainN 0 m0) := by
    simp [main, initialize_arrays]
  have hval : ∀ i, i < 1024 →
      (main true true true cap m0).mem (pcMain + i) = 1024 := by
    intro i hi
    rw [hmem]
    have hi' : i < mainN := by
      show i < 1024
      exact hi
    rw [add_arrays_val (· + ·) cap paMain pbMain pcMain mainN _ hca hcb i hi']
    rw [initLoop_val_a (fun k => k) paMain pbMain mainN hab 0 m0 i
      (Nat.zero_le i) hi']
    rw [initLoop_val_b (fun k => k) paMain pbMain mainN hab 0 m0 i
      (Nat.zero_le i) hi']
    show i + (1024 - i) = 1024
    omega
  refine ⟨hval, ?_, ?_⟩
  · have hstdout : (main true true true cap m0).stdoutLines =
        (capabilityLine cap).toList ++
          printLines ((main true true true cap m0).mem) pcMain := by
      simp [main]
    rw [hstdout]
    have hprint : printLines ((main true true true cap m0).mem) pcMain =
        (List.range 10).map (fun i => "c[" ++ toString i ++ "] = 1024.000000") := by
      unfold printLines
      refine List.map_congr_left (fun i hi => ?_)
      have hi10 : i < 10 := List.mem_range.mp hi
      rw [hval i (by omega)]
      rw [String.append_assoc]
      congr 1
    rw [hprint]
  · simp [main]

/-- C5: `initialize_arrays` yields `a[i] = (float)i` and
`b[i] = (float)(n - i)` for every `i` in `[0, n)` (with `ofNat` the C cast
from the index type), deterministically: the right-hand sides mention
nothing but `i` and `n` — no other state. -/
theorem initialize_arrays_correct {α : Type} (ofNat : Nat → α)
    (pa pb n : Nat) (m : Mem α) (hab : disjointBuf pa pb n)
    (i : Nat) (hi : i < n) :
    initialize_arrays ofNat pa pb n m (pa + i) = ofNat i ∧
    initialize_arrays ofNat pa pb n m (pb + i) = ofNat (n - i) := by
  unfold initialize_arrays
  exact ⟨initLoop_val_a ofNat pa pb n hab 0 m i (Nat.zero_le i) hi,
    initLoop_val_b ofNat pa pb n hab 0 m i (Nat.zero_le i) hi⟩

theorem initialize_arrays_correct_witness :
    disjointBuf 0 7 5 ∧ 3 < 5 ∧
    initialize_arrays (fun k => k) 0 7 5 (fun _ => 99) (0 + 3) = 3 ∧
    initialize_arrays (fun k => k) 0 7 5 (fun _ => 99) (7 + 3) = 5 - 3 := by
  have h := initialize_arrays_correct (fun k => k) 0 7 5 (fun _ => 99)
    (by decide) 3 (by decide)
  exact ⟨by decide, by decide, h.1, h.2⟩

/-- C6: if any of the three allocations fails (the combined
`if (!a || !b || !c)` check), `main` writes the single line
`Memory allocation failed` to stderr and returns 1, with nothing on stdout
and the memory untouched (no initialization, no addition); if all three
succeed it returns 0 with nothing on stderr. -/
theorem main_alloc_check (fa fb fc : Bool) (cap : Capability) (m0 : Mem Nat) :
    ((fa && fb && fc) = false →
      (main fa fb fc cap m0).exitCode = 1 ∧
      (main fa fb fc cap m0).stderrLines = ["Memory allocation failed"] ∧
      (main fa fb fc cap m0).stdoutLines = [] ∧
      (main fa fb fc cap m0).mem = m0) ∧
    ((fa && fb && fc) = true →
      (main fa fb fc cap m0).exitCode = 0 ∧
      (main fa fb fc cap m0).stderrLines = []) := by
  constructor
  · intro h
    simp [main, h]
  · intro h
    simp [main, h]

theorem main_alloc_check_witness :
    ((true && false && true) = false ∧
      (main true false true Capability.wide (fun _ => 0)).exitCode = 1 ∧
      (main true false true Capability.wide (fun _ => 0)).stderrLines =
        ["Memory allocation failed"] ∧
      (main true false true Capability.wide (fun _ => 0)).stdoutLines = [] ∧
      (main true false true Capability.wide (fun _ => 0)).mem = (fun _ => 0)) ∧
    ((true && true && true) = true ∧
      (main true true true Capability.scalar (fun _ => 0)).exitCode = 0) := by
  have h1 := (main_alloc_check true false true Capability.wide (fun _ => 0)).1
    (by decide)
  have h2 := (main_alloc_check true true true Capability.scalar (fun _ => 0)).2
    (by decide)
  exact ⟨⟨by decide, h1.1, h1.2.1, h1.2.2.1, h1.2.2.2⟩, by decide, h2.1⟩

/-- C7: strategy selection is a strict priority chain over the capability
markers: if the wide-vector marker (`__AVX__`) is set, the wide strategy is
chosen whatever the narrow marker says; otherwise the narrow marker
(`__SSE2__`) selects the narrow strategy; otherwise scalar.  It is a pure
function of the two build-time markers — evaluated once, with no dependence
on any call- or array-specific data. -/
theorem selectCapability_priority :
    (∀ sse2 : Bool, selectCapability true sse2 = Capability.wide) ∧
    selectCapability false true = Capability.narrow ∧
    selectCapability false false = Capability.scalar :=
  ⟨fun _ => rfl, rfl, rfl⟩

/-- C9: given non-aliasing buffers of length `n`, `add_arrays_simd` writes
only the output buffer `c`: after it returns, every element of `a` and of
`b` holds its original value, under all three strategies. -/
theorem add_arrays_simd_preserves_inputs {α : Type} (add : α → α → α)
    (cap : Capability) (pa pb pc n : Nat) (m : Mem α)
    (hca : disjointBuf pc pa n) (hcb : disjointBuf pc pb n)
    (j : Nat) (hj : j < n) :
    add_arrays_simd add cap pa pb pc n m (pa + j) = m (pa + j) ∧
    add_arrays_simd add cap pa pb pc n m (pb + j) = m (pb + j) :=
  ⟨add_arrays_frame add cap pa pb pc n m (pa + j)
      (fun k hk => Ne.symm (disjointBuf_ne hca hk hj)),
    add_arrays_frame add cap pa pb pc n m (pb + j)
      (fun k hk => Ne.symm (disjointBuf_ne hcb hk hj))⟩

theorem add_arrays_simd_preserves_inputs_witness :
    disjointBuf 20 0 5 ∧ disjointBuf 20 10 5 ∧ 4 < 5 ∧
    add_arrays_simd (· + ·) Capability.narrow 0 10 20 5 (fun x => x) (0 + 4) =
      (fun x : Nat => x) (0 + 4) ∧
    add_arrays_simd (· + ·) Capability.narrow 0 10 20 5 (fun x => x) (10 + 4) =
      (fun x : Nat => x) (10 + 4) := by
  have h := add_arrays_simd_preserves_inputs (· + ·) Capability.narrow
    0 10 20 5 (fun x => x) (by decide) (by decide) 4 (by decide)
  exact ⟨by decide, by decide, by decide, h.1, h.2⟩

/-- C10: every buffer offset accessed by `add_arrays_simd` — the lanes
`i .. i+7` (resp. `i .. i+3`) of a full chunk, entered only when
`i + 8 ≤ n` (resp. `i + 4 ≤ n`), and the indices of the remainder loop,
entered only while `i < n` — lies in `[0, n)`; so with buffers of length at
least `n` no access falls outside them. -/
theorem accessOffsets_in_bounds (cap : Capability) (n : Nat) (j : Nat)
    (hj : j ∈ accessOffsets cap n) : j < n := by
  cases cap with
  | wide =>
    simp only [accessOffsets] at hj
    rcases List.mem_append.mp hj with h | h
    · exact chunkLoopT_mem 8 n 0 j h
    · exact remLoopT_mem n _ j h
  | narrow =>
    simp only [accessOffsets] at hj
    rcases List.mem_append.mp hj with h | h
    · exact chunkLoopT_mem 4 n 0 j h
    · exact remLoopT_mem n _ j h
  | scalar =>
    simp only [accessOffsets] at hj
    exact remLoopT_mem n 0 j hj

theorem accessOffsets_in_bounds_witness :
    2 ∈ accessOffsets Capability.scalar 5 ∧ 2 < 5 := by
  have hmem : 2 ∈ accessOffsets Capability.scalar 5 := by
    simp [accessOffsets, remLoopT]
  exact ⟨hmem, accessOffsets_in_bounds Capability.scalar 5 2 hmem⟩

end SimdExample
